import Mathlib

/-!
Verification of the Termibbl server core against its specification.

The Rust sources are shallowly embedded: pure functions become Lean
functions, `HashMap` becomes an association list with matching insert,
remove, contains and len semantics, machine integers become `Nat`
(with explicit wrap where overflow matters), fallible or panicking code
returns `Option` or `Except`, and channel state is passed explicitly.
Randomness (`rand::thread_rng`) is modelled by an explicit choice
parameter, and wall-clock and floating point quantities (remaining
round time and the f64 score bonus cast) are passed as parameters.
-/

set_option maxHeartbeats 1000000

namespace Termibbl

/-! ### Association-list model of std HashMap -/

/-- Association-list model of a Rust HashMap; keys are unique by
construction in every state this development builds. -/
abbrev HMap (α β : Type) : Type := List (α × β)

namespace HMap

variable {α β : Type} [DecidableEq α]

/-- HashMap::new -/
def empty : HMap α β := []

/-- HashMap::contains_key -/
def contains (m : HMap α β) (k : α) : Bool := m.any (fun p => p.1 = k)

/-- HashMap::get -/
def get? (m : HMap α β) (k : α) : Option β := (m.find? (fun p => p.1 = k)).map (·.2)

/-- HashMap::insert (replaces the value when the key is present). -/
def insert (m : HMap α β) (k : α) (v : β) : HMap α β :=
  if m.contains k then m.map (fun p => if p.1 = k then (k, v) else p) else m ++ [(k, v)]

/-- HashMap::remove (value-dropping view). -/
def remove (m : HMap α β) (k : α) : HMap α β := m.filter (fun p => ¬ p.1 = k)

/-- HashMap::len (keys are unique in every constructed state). -/
def size (m : HMap α β) : Nat := m.length

/-- HashMap::clear -/
def clear (_ : HMap α β) : HMap α β := []

theorem find?_overwrite (l : List (α × β)) (k : α) (v : β) :
    ((l.map (fun p => if p.1 = k then (k, v) else p)).find?
        (fun p => decide (p.1 = k))).map (·.2) =
      if l.any (fun p => decide (p.1 = k)) then some v else none := by
  induction l with
  | nil => simp
  | cons p rest ih =>
    by_cases hp : p.1 = k
    · simp [List.find?, hp]
    · simp only [List.map_cons, if_neg hp, List.find?, decide_eq_false hp, List.any_cons]
      simpa [hp] using ih

theorem find?_overwrite_other (l : List (α × β)) (k k' : α) (v : β) (h : k' ≠ k) :
    (l.map (fun p => if p.1 = k then (k, v) else p)).find? (fun p => decide (p.1 = k')) =
      (l.find? (fun p => decide (p.1 = k'))).map (fun p => if p.1 = k then (k, v) else p) := by
  induction l with
  | nil => simp
  | cons p rest ih =>
    by_cases hp : p.1 = k
    · have hne : ¬ (k = k') := fun hc => h hc.symm
      simp only [List.map_cons, if_pos hp, List.find?, decide_eq_false hne]
      have hpk' : ¬ (p.1 = k') := by rw [hp]; exact hne
      simp only [decide_eq_false hpk']
      exact ih
    · simp only [List.map_cons, if_neg hp, List.find?]
      by_cases hq : p.1 = k'
      · simp [decide_eq_true hq, if_neg hp]
      · simp only [decide_eq_false hq]
        exact ih

theorem get?_insert_self (m : HMap α β) (k : α) (v : β) :
    (m.insert k v).get? k = some v := by
  unfold insert get? contains
  by_cases hc : m.any (fun p => decide (p.1 = k))
  · rw [if_pos hc, find?_overwrite, if_pos hc]
  · rw [if_neg hc]
    induction m with
    | nil => simp [List.find?]
    | cons p rest ih =>
      simp only [List.any_cons, Bool.or_eq_true, not_or] at hc
      simp only [List.cons_append, List.find?, decide_eq_false (by simpa using hc.1)]
      exact ih hc.2

theorem get?_insert_ne (m : HMap α β) (k k' : α) (v : β) (h : k' ≠ k) :
    (m.insert k v).get? k' = m.get? k' := by
  unfold insert get?
  by_cases hc : m.contains k
  · rw [if_pos hc, find?_overwrite_other m k k' v h]
    rcases hfind : m.find? (fun p => decide (p.1 = k')) with _ | p
    · rw [hfind]; simp
    · have hp : p.1 = k' := by
        have := List.find?_some hfind
        simpa using this
      have hpk : ¬ p.1 = k := by rw [hp]; exact h
      rw [hfind]
      simp [hpk]
  · rw [if_neg hc]
    induction m with
    | nil =>
      simp only [List.nil_append, List.find?]
      rw [decide_eq_false (fun hc => h hc.symm)]
    | cons p rest ih =>
      by_cases hq : p.1 = k'
      · simp [List.find?, decide_eq_true hq]
      · simp only [List.cons_append, List.find?, decide_eq_false hq]
        apply ih
        intro hcr
        apply hc
        unfold contains at hcr ⊢
        simp only [List.any_cons, Bool.or_eq_true]
        right; exact hcr

theorem get?_remove_self (m : HMap α β) (k : α) : (m.remove k).get? k = none := by
  unfold remove get?
  induction m with
  | nil => simp
  | cons p rest ih =>
    by_cases hp : p.1 = k
    · simp only [List.filter_cons, decide_eq_false (not_not_intro hp), Bool.false_eq_true,
        if_false]
      exact ih
    · simp only [List.filter_cons, decide_eq_true (show ¬ p.1 = k from hp), List.find?,
        decide_eq_false hp]
      exact ih

theorem get?_remove_ne (m : HMap α β) (k k' : α) (h : k' ≠ k) :
    (m.remove k).get? k' = m.get? k' := by
  unfold remove get?
  induction m with
  | nil => simp
  | cons p rest ih =>
    by_cases hp : p.1 = k
    · have hq : ¬ p.1 = k' := by rw [hp]; exact fun hc => h hc.symm
      simp only [List.filter_cons, decide_eq_false (show ¬ ¬ p.1 = k from not_not_intro hp),
        List.find?, decide_eq_false hq]
      exact ih
    · simp only [List.filter_cons, decide_eq_true (show ¬ p.1 = k from hp), List.find?]
      by_cases hq : p.1 = k'
      · simp [decide_eq_true hq]
      · simp only [decide_eq_false hq]
        exact ih

theorem get?_clear (m : HMap α β) (k : α) : (m.clear).get? k = none := rfl

end HMap

/-! ### src/world.rs : domain data model -/

/-- world.rs: `pub type PlayerId = u8` (modelled as Nat). -/
abbrev PlayerId := Nat

/-- world.rs: `pub struct Username(String, PlayerId)`. -/
structure Username where
  name : String
  id : PlayerId
deriving DecidableEq, Repr

/-- world.rs: `pub struct Player`. -/
structure Player where
  score : Nat
  name : Username
  solvedCurrentRound : Bool
deriving DecidableEq, Repr

/-- world.rs: `pub type Coord = (u16, u16)` (modelled as Nat pairs). -/
abbrev Coord := Nat × Nat

/-- world.rs: `pub enum Color` (16 terminal colors). -/
inductive Color where
  | White | Gray | DarkGray | Black
  | Red | LightRed | Green | LightGreen
  | Blue | LightBlue | Yellow | LightYellow
  | Cyan | LightCyan | Magenta | LightMagenta
deriving DecidableEq, Repr

/-- world.rs: `pub enum Draw`. -/
inductive Draw where
  | Clear : Draw
  | Erase : Coord → Draw
  | Paint : List Coord → Color → Draw
deriving DecidableEq, Repr

/-- world.rs: `pub struct GameOpts`. -/
structure GameOpts where
  dimensions : Coord
  numberOfRounds : Nat
  roundDuration : Nat
  maxRoomSize : Nat
  customWords : List String
  onlyCustomWords : Bool
deriving DecidableEq, Repr

/-- world.rs: `pub enum RoomState<T>`. -/
inductive RoomState (T : Type) where
  | FreeDraw : RoomState T
  | Lobby : RoomState T
  | Waiting : RoomState T
  | Playing : T → RoomState T
deriving DecidableEq, Repr

/-- world.rs: `pub enum TurnState`. -/
inductive TurnState where
  | Start | Drawing | End
deriving DecidableEq, Repr

/-- world.rs: `pub enum DrawingWord`; in the Guess variant `hints` maps a
character index to the revealed character. -/
inductive DrawingWord where
  | Guess : HMap Nat Char → Username → Nat → DrawingWord
  | Draw : String → DrawingWord
deriving DecidableEq, Repr

/-- world.rs: `pub struct Turn`. -/
structure Turn where
  state : TurnState
  word : DrawingWord
  endInstant : Nat
  currentRound : Nat
  lastRound : Nat
deriving DecidableEq, Repr

/-- world.rs: `pub struct Game`. -/
structure Game where
  dimensions : Coord
  canvas : HMap Coord Color
  turn : Turn
deriving DecidableEq, Repr

/-- message.rs: `pub enum ChatMessage`. -/
inductive ChatMessage where
  | System : String → ChatMessage
  | User : Username → String → ChatMessage
deriving DecidableEq, Repr

/-- message.rs: `pub enum ToClient` (server to client messages). -/
inductive ToClient where
  | Chat : ChatMessage → ToClient
  | Draw : Draw → ToClient
  | PlayerConnect : Player → ToClient
  | PlayerDisconnect : Username → ToClient
  | Kicked : String → ToClient
  | TurnStart : Turn → ToClient
  | RoomStateChange : RoomState Game → ToClient
  | JoinRoom : Username → List Player → RoomState Game → ToClient
  | TimeChanged : Nat → ToClient
deriving DecidableEq, Repr

/-- world.rs: `impl From<(Username, &str)> for DrawingWord` — builds the
Guess variant, pre-revealing whitespace and hyphen characters; `word_len`
is the Rust byte length `word.len()`. -/
def DrawingWord.fromWord (who : Username) (word : String) : DrawingWord :=
  let hints : HMap Nat Char :=
    ((word.data.enum).filter (fun p => p.2.isWhitespace || p.2 = '-')).foldl
      (fun h p => h.insert p.1 p.2) []
  DrawingWord.Guess hints who word.utf8ByteSize

/-! ### src/events.rs : the event queue primitive

The three flume channels of an `EventQueue` (normal, immediate, timer)
are modelled as the explicit queue state below; a `send` on a channel
appends to the corresponding FIFO list and a channel receive pops the
head. -/

/-- State of the three channels backing an `EventQueue<E>`. -/
structure EventQueueState (E : Type) where
  normal : List E
  immediate : List E
  timer : List (Nat × E)
deriving DecidableEq, Repr

/-- events.rs: `EventQueue::default` — three fresh unbounded channels. -/
def EventQueueState.default (E : Type) : EventQueueState E := ⟨[], [], []⟩

namespace EventSender

/-- events.rs: `EventSender::send` — `self.tx.send(value)`. -/
def send {E : Type} (q : EventQueueState E) (value : E) : EventQueueState E :=
  { q with normal := q.normal ++ [value] }

/-- events.rs: `EventSender::send_immediate` — the source is
`self.tx.send(value)`, i.e. it enqueues on the NORMAL channel
(`tx_immediate` is never used). -/
def sendImmediate {E : Type} (q : EventQueueState E) (value : E) : EventQueueState E :=
  { q with normal := q.normal ++ [value] }

end EventSender

namespace EventQueue

/-- events.rs: `EventQueue::recv` — if the immediate channel is non-empty
take its head, otherwise select over the normal and immediate channels
(the immediate one being empty at that point, a pending normal message is
returned; with both empty the call blocks, modelled as `none`). -/
def recv {E : Type} (q : EventQueueState E) : Option (E × EventQueueState E) :=
  match q.immediate with
  | v :: rest => some (v, { q with immediate := rest })
  | [] =>
    match q.normal with
    | v :: rest => some (v, { q with normal := rest })
    | [] => none

end EventQueue

/-! ### src/message.rs : the wire protocol codec

The payload serialization (bincode) is an external library; the codec is
generic over it, exactly as `NetworkMessage<T>` is generic over `T`. A
`Serde T` packages the external `bincode::serialize` / `deserialize`
pair; bytes are Nat values below 256. -/

/-- The external bincode serializer for a payload type. -/
structure Serde (T : Type) where
  ser : T → List Nat
  de : List Nat → Option T

/-- message.rs: `pub enum Error` (the codec error cases that decode and
encode can produce). -/
inductive CodecError where
  | serialization : CodecError
  | ioError : CodecError
  | largePayload : CodecError
  | invalidLengthByte : Nat → CodecError
deriving DecidableEq, Repr

/-- Big-endian bytes of `n`, `w` bytes wide (`put_u16` / `put_u32` /
`put_u64` after the in-range cast). -/
def beBytes : Nat → Nat → List Nat
  | 0, _ => []
  | w + 1, n => n / 256 ^ w % 256 :: beBytes w n

/-- Big-endian read of a byte list (`read_u16` / `read_u32` / `read_u64`). -/
def readBE (bs : List Nat) : Nat := bs.foldl (fun acc b => acc * 256 + b) 0

namespace NetworkMessage

/-- message.rs: `Encoder::encode` — serialize the message, pick the
smallest of the u16/u32/u64 widths that fits the payload length, and
append the tag byte, the big-endian length and the payload to `buf`;
a payload too large for u64 is the LargePayload error. -/
def encode {T : Type} (S : Serde T) (msg : T) (buf : List Nat) :
    Except CodecError (List Nat) :=
  let m := S.ser msg
  let msgLen := m.length
  if msgLen < 2 ^ 16 then .ok (buf ++ 2 :: beBytes 2 msgLen ++ m)
  else if msgLen < 2 ^ 32 then .ok (buf ++ 4 :: beBytes 4 msgLen ++ m)
  else if msgLen < 2 ^ 64 then .ok (buf ++ 8 :: beBytes 8 msgLen ++ m)
  else .error .largePayload

/-- Shared tail of `decode` once the length width is known: read the
big-endian payload length, then either wait for the full frame or split
it off and deserialize. -/
def decodeFrame {T : Type} (S : Serde T) (src : List Nat) (w : Nat) :
    Except CodecError (Option T × List Nat) :=
  let payloadSize := readBE ((src.drop 1).take w)
  let headerSize := 1 + w
  let frameSize := headerSize + payloadSize
  if src.length < frameSize then .ok (none, src)
  else
    match S.de ((src.drop headerSize).take payloadSize) with
    | some v => .ok (some v, src.drop frameSize)
    | none => .error .serialization

/-- message.rs: `Decoder::decode` — with at most 3 buffered bytes, or a
zero tag byte, report "need more data" (`Ok(None)`); tags 2, 4, 8 select
the length width (a `read_u32`/`read_u64` beyond the buffered bytes is an
IO error); any other tag is the InvalidLengthBye protocol error. The
returned list is the buffer as left for the next read. -/
def decode {T : Type} (S : Serde T) (src : List Nat) :
    Except CodecError (Option T × List Nat) :=
  if src.length ≤ 3 then .ok (none, src)
  else
    let t := src.getD 0 0
    if t = 0 then .ok (none, src)
    else if t = 2 then decodeFrame S src 2
    else if t = 4 then
      if src.length < 5 then .error .ioError else decodeFrame S src 4
    else if t = 8 then
      if src.length < 9 then .error .ioError else decodeFrame S src 8
    else .error (.invalidLengthByte t)

end NetworkMessage

/-! ### Codec lemmas -/

theorem beBytes_length (w n : Nat) : (beBytes w n).length = w := by
  induction w generalizing n with
  | zero => rfl
  | succ w ih => simp [beBytes, ih]

theorem foldl_readBE (bs : List Nat) (acc : Nat) :
    bs.foldl (fun a b => a * 256 + b) acc = acc * 256 ^ bs.length + readBE bs := by
  induction bs generalizing acc with
  | nil => simp [readBE]
  | cons b bs ih =>
    show (bs.foldl (fun a b => a * 256 + b) (acc * 256 + b)) = _
    rw [ih]
    have hr : readBE (b :: bs) = b * 256 ^ bs.length + readBE bs := by
      show (bs.foldl (fun a b => a * 256 + b) (0 * 256 + b)) = _
      rw [ih]; ring_nf
    rw [hr]
    simp [List.length_cons, pow_succ]
    ring

theorem readBE_beBytes (w n : Nat) : readBE (beBytes w n) = n % 256 ^ w := by
  induction w generalizing n with
  | zero => simp [beBytes, readBE, Nat.mod_one]
  | succ w ih =>
    show readBE (n / 256 ^ w % 256 :: beBytes w n) = _
    have h1 : readBE (n / 256 ^ w % 256 :: beBytes w n)
        = (n / 256 ^ w % 256) * 256 ^ w + readBE (beBytes w n) := by
      show (beBytes w n).foldl (fun a b => a * 256 + b) (0 * 256 + (n / 256 ^ w % 256)) = _
      rw [foldl_readBE, beBytes_length]; ring_nf
    rw [h1, ih, pow_succ, Nat.mod_mul]
    ring

theorem readBE_beBytes_of_lt (w n : Nat) (h : n < 256 ^ w) :
    readBE (beBytes w n) = n := by
  rw [readBE_beBytes, Nat.mod_eq_of_lt h]

/-- Shared core: decoding a buffer that starts with a complete well-formed
frame (any tag byte, width `w` length field holding the payload length)
yields the deserialized payload and the bytes after the frame. -/
theorem decodeFrame_complete {T : Type} (S : Serde T) (m : T) (t w : Nat)
    (rest : List Nat) (hde : S.de (S.ser m) = some m)
    (hn : (S.ser m).length < 256 ^ w) :
    NetworkMessage.decodeFrame S (t :: beBytes w (S.ser m).length ++ S.ser m ++ rest) w
      = .ok (some m, rest) := by
  set n := (S.ser m).length with hn_def
  have hsrc : t :: beBytes w n ++ S.ser m ++ rest
      = ((t :: beBytes w n) ++ S.ser m) ++ rest := by simp
  unfold NetworkMessage.decodeFrame
  have hdrop1 : (t :: beBytes w n ++ S.ser m ++ rest).drop 1
      = beBytes w n ++ (S.ser m ++ rest) := by simp
  have htake : ((t :: beBytes w n ++ S.ser m ++ rest).drop 1).take w = beBytes w n := by
    rw [hdrop1, List.take_left' (beBytes_length w n)]
  rw [htake, readBE_beBytes_of_lt w n hn]
  have hlen : (t :: beBytes w n ++ S.ser m ++ rest).length = 1 + w + n + rest.length := by
    simp only [List.length_cons, List.length_append, beBytes_length]; omega
  have hnotlt : ¬ (t :: beBytes w n ++ S.ser m ++ rest).length < 1 + w + n := by
    rw [hlen]; omega
  rw [if_neg hnotlt]
  have hdropH : (t :: beBytes w n ++ S.ser m ++ rest).drop (1 + w) = S.ser m ++ rest := by
    have : (t :: beBytes w n).length = 1 + w := by simp only [List.length_cons, List.length_append, beBytes_length]; omega
    calc (t :: beBytes w n ++ S.ser m ++ rest).drop (1 + w)
        = (((t :: beBytes w n) ++ (S.ser m ++ rest))).drop (1 + w) := by simp
      _ = S.ser m ++ rest := List.drop_left' this
  have hdeq : ((t :: beBytes w n ++ S.ser m ++ rest).drop (1 + w)).take n = S.ser m := by
    rw [hdropH, List.take_left' rfl]
  rw [hdeq, hde]
  have hdropF : (t :: beBytes w n ++ S.ser m ++ rest).drop (1 + w + n) = rest := by
    have hl : ((t :: beBytes w n) ++ S.ser m).length = 1 + w + n := by
      simp only [List.length_cons, List.length_append, beBytes_length]; omega
    calc (t :: beBytes w n ++ S.ser m ++ rest).drop (1 + w + n)
        = (((t :: beBytes w n) ++ S.ser m) ++ rest).drop (1 + w + n) := by simp
      _ = rest := List.drop_left' hl
  rw [hdropF]

/-- Shared core: decode after encode, with arbitrary trailing bytes. -/
theorem decode_encode_aux {T : Type} (S : Serde T) (m : T) (rest : List Nat)
    (hde : S.de (S.ser m) = some m) (hlen : 1 ≤ (S.ser m).length)
    (hfit : (S.ser m).length < 2 ^ 64) :
    ∃ frame, NetworkMessage.encode S m [] = .ok frame ∧
      NetworkMessage.decode S (frame ++ rest) = .ok (some m, rest) := by
  by_cases h16 : (S.ser m).length < 2 ^ 16
  · refine ⟨2 :: beBytes 2 (S.ser m).length ++ S.ser m, ?_, ?_⟩
    · unfold NetworkMessage.encode
      rw [if_pos h16]
      simp
    · unfold NetworkMessage.decode
      have hlen4 : ¬ (2 :: beBytes 2 (S.ser m).length ++ S.ser m ++ rest).length ≤ 3 := by
        simp only [List.length_cons, List.length_append, beBytes_length]; omega
      have hget : (2 :: beBytes 2 (S.ser m).length ++ S.ser m ++ rest).getD 0 0 = 2 := by
        simp
      simp only [List.append_assoc] at hlen4 hget ⊢
      rw [if_neg hlen4, hget,
        if_neg (by norm_num : ¬ (2 : Nat) = 0), if_pos (rfl : (2 : Nat) = 2)]
      exact decodeFrame_complete S m 2 2 rest hde (by norm_num at h16 ⊢; exact h16)
  · by_cases h32 : (S.ser m).length < 2 ^ 32
    · refine ⟨4 :: beBytes 4 (S.ser m).length ++ S.ser m, ?_, ?_⟩
      · unfold NetworkMessage.encode
        rw [if_neg h16, if_pos h32]
        simp
      · unfold NetworkMessage.decode
        have hlen4 : ¬ (4 :: beBytes 4 (S.ser m).length ++ S.ser m ++ rest).length ≤ 3 := by
          simp only [List.length_cons, List.length_append, beBytes_length]; omega
        have hget : (4 :: beBytes 4 (S.ser m).length ++ S.ser m ++ rest).getD 0 0 = 4 := by
          simp
        have hlen5 : ¬ (4 :: beBytes 4 (S.ser m).length ++ S.ser m ++ rest).length < 5 := by
          simp only [List.length_cons, List.length_append, beBytes_length]; omega
        simp only [List.append_assoc] at hlen4 hget hlen5 ⊢
        rw [if_neg hlen4, hget,
          if_neg (by norm_num : ¬ (4 : Nat) = 0), if_neg (by norm_num : ¬ (4 : Nat) = 2),
          if_pos (rfl : (4 : Nat) = 4), if_neg hlen5]
        exact decodeFrame_complete S m 4 4 rest hde (by norm_num at h32 ⊢; exact h32)
    · refine ⟨8 :: beBytes 8 (S.ser m).length ++ S.ser m, ?_, ?_⟩
      · unfold NetworkMessage.encode
        rw [if_neg h16, if_neg h32, if_pos hfit]
        simp
      · unfold NetworkMessage.decode
        have hlen4 : ¬ (8 :: beBytes 8 (S.ser m).length ++ S.ser m ++ rest).length ≤ 3 := by
          simp only [List.length_cons, List.length_append, beBytes_length]; omega
        have hget : (8 :: beBytes 8 (S.ser m).length ++ S.ser m ++ rest).getD 0 0 = 8 := by
          simp
        have hlen9 : ¬ (8 :: beBytes 8 (S.ser m).length ++ S.ser m ++ rest).length < 9 := by
          simp only [List.length_cons, List.length_append, beBytes_length]; omega
        simp only [List.append_assoc] at hlen4 hget hlen9 ⊢
        rw [if_neg hlen4, hget,
          if_neg (by norm_num : ¬ (8 : Nat) = 0), if_neg (by norm_num : ¬ (8 : Nat) = 2),
          if_neg (by norm_num : ¬ (8 : Nat) = 4), if_pos (rfl : (8 : Nat) = 8),
          if_neg hlen9]
        exact decodeFrame_complete S m 8 8 rest hde (by norm_num at hfit ⊢; exact hfit)

/-- A concrete serializer used to instantiate codec theorems: four-byte
payloads, matching the shape (though not the format) of a bincode-encoded
enum value. -/
def SNat : Serde Nat :=
  ⟨fun n => [n % 256, 1, 2, 3],
   fun l => match l with
     | [a, 1, 2, 3] => some a
     | _ => none⟩

/-- A concrete serializer whose payloads are 65536 bytes long, forcing
encode to pick the 4-byte length width. -/
def SBig : Serde Unit :=
  ⟨fun _ => List.replicate 65536 0,
   fun l => if l.length = 65536 then some () else none⟩

instance {e a : Type} [DecidableEq e] [DecidableEq a] : DecidableEq (Except e a)
  | .error x, .error y =>
    if h : x = y then isTrue (by rw [h]) else isFalse (fun hc => by cases hc; exact h rfl)
  | .error _, .ok _ => isFalse (fun hc => by cases hc)
  | .ok _, .error _ => isFalse (fun hc => by cases hc)
  | .ok x, .ok y =>
    if h : x = y then isTrue (by rw [h]) else isFalse (fun hc => by cases hc; exact h rfl)

/-- C1: the code at the failing input. After `send("normal")` followed by
`send_immediate("immediate")` (one Normal and one Immediate message
pending), the next `recv` returns the NORMAL message, because
`send_immediate` enqueues on the normal channel (`self.tx.send`). The
claim says the Immediate message is returned first. -/
theorem recv_returns_normal_before_immediate :
    EventQueue.recv
        (EventSender.sendImmediate
          (EventSender.send (EventQueueState.default String) "normal") "immediate")
      = some ("normal", ⟨["immediate"], [], []⟩) ∧
    ("normal" : String) ≠ "immediate" :=
  ⟨rfl, by decide⟩

/-- C2: for every message whose (external, bincode) serialization
round-trips and is non-empty and below the u64 bound — true of every
domain message, a bincode-encoded enum being at least 4 bytes — decoding
the buffer produced by encode yields exactly the message and consumes
precisely the encoded frame, leaving any trailing bytes in the buffer. -/
theorem decode_encode_roundtrip {T : Type} (S : Serde T) (m : T) (rest : List Nat)
    (hde : S.de (S.ser m) = some m) (hlen : 1 ≤ (S.ser m).length)
    (hfit : (S.ser m).length < 2 ^ 64) :
    ∃ frame, NetworkMessage.encode S m [] = .ok frame ∧
      NetworkMessage.decode S frame = .ok (some m, []) ∧
      NetworkMessage.decode S (frame ++ rest) = .ok (some m, rest) := by
  obtain ⟨f, he, hd⟩ := decode_encode_aux S m rest hde hlen hfit
  obtain ⟨f2, he2, hd2⟩ := decode_encode_aux S m [] hde hlen hfit
  have hf : f2 = f := by
    have h := he.symm.trans he2
    exact (Except.ok.injEq _ _).mp h.symm
  rw [hf, List.append_nil] at hd2
  exact ⟨f, he, hd2, hd⟩

/-- Witness for decode_encode_roundtrip at the concrete message 5 with
trailing bytes [7, 7]. -/
theorem decode_encode_roundtrip_witness :
    (SNat.de (SNat.ser 5) = some 5 ∧ 1 ≤ (SNat.ser 5).length ∧
      (SNat.ser 5).length < 2 ^ 64) ∧
    (∃ frame, NetworkMessage.encode SNat 5 [] = .ok frame ∧
      NetworkMessage.decode SNat frame = .ok (some 5, []) ∧
      NetworkMessage.decode SNat (frame ++ [7, 7]) = .ok (some 5, [7, 7])) :=
  ⟨⟨by decide, by decide, by norm_num [SNat]⟩,
    decode_encode_roundtrip SNat 5 [7, 7] (by decide) (by decide) (by norm_num [SNat])⟩

/-- Unfolded form of encode (the definition zeta-reduced). -/
theorem encode_eq {T : Type} (S : Serde T) (msg : T) (buf : List Nat) :
    NetworkMessage.encode S msg buf =
      if (S.ser msg).length < 2 ^ 16 then
        .ok (buf ++ 2 :: beBytes 2 (S.ser msg).length ++ S.ser msg)
      else if (S.ser msg).length < 2 ^ 32 then
        .ok (buf ++ 4 :: beBytes 4 (S.ser msg).length ++ S.ser msg)
      else if (S.ser msg).length < 2 ^ 64 then
        .ok (buf ++ 8 :: beBytes 8 (S.ser msg).length ++ S.ser msg)
      else .error .largePayload := rfl

/-- C3 counterexample: the claim fails as stated. For the message whose
payload is 65536 bytes (len_tag 4), the strict prefix [4, 0, 1, 0] of the
encoded frame makes decode return the IO error (read_u32 runs past the
buffered bytes), not "need more data". -/
theorem decode_len4_header_prefix_io_error :
    NetworkMessage.encode SBig () [] =
      .ok ([4, 0, 1, 0] ++ (0 :: List.replicate 65536 0)) ∧
    (0 :: List.replicate 65536 0 : List Nat) ≠ [] ∧
    NetworkMessage.decode SBig [4, 0, 1, 0] = .error .ioError := by
  refine ⟨?_, List.cons_ne_nil 0 (List.replicate 65536 0), by rfl⟩
  rw [encode_eq]
  have hl : (SBig.ser ()).length = 65536 := by
    show (List.replicate 65536 0).length = 65536
    rw [List.length_replicate]
  rw [hl, if_neg (by norm_num), if_pos (by norm_num)]
  have hb : beBytes 4 65536 = [0, 1, 0, 0] := by norm_num [beBytes]
  rw [hb]
  show Except.ok ([] ++ 4 :: [0, 1, 0, 0] ++ List.replicate 65536 0) = _
  simp only [List.nil_append, List.cons_append]

/-- C3 amended: for every message whose encoded payload is shorter than
2^16 bytes (len_tag 2 — every frame the claim's incremental-read guarantee
can rely on), decoding any strict prefix of the encoded frame yields
"need more data" with the buffer left unchanged, and decoding the full
buffer after the remaining bytes arrive yields the message. -/
theorem decode_strict_prefix_tag2 {T : Type} (S : Serde T) (m : T) (P rest : List Nat)
    (hde : S.de (S.ser m) = some m) (hlen : 1 ≤ (S.ser m).length)
    (hsmall : (S.ser m).length < 2 ^ 16)
    (hframe : NetworkMessage.encode S m [] = .ok (P ++ rest)) (hrest : rest ≠ []) :
    NetworkMessage.decode S P = .ok (none, P) ∧
    NetworkMessage.decode S (P ++ rest) = .ok (some m, []) := by
  have hE : P ++ rest = 2 :: beBytes 2 (S.ser m).length ++ S.ser m := by
    unfold NetworkMessage.encode at hframe
    rw [if_pos hsmall] at hframe
    have := (Except.ok.injEq _ _).mp hframe.symm
    simpa using this
  constructor
  · by_cases hk : P.length ≤ 3
    · unfold NetworkMessage.decode
      rw [if_pos hk]
    · have hk4 : 4 ≤ P.length := by omega
      have hPtake : P = (2 :: (beBytes 2 (S.ser m).length ++ S.ser m)).take P.length := by
        have h1 : P = (P ++ rest).take P.length := (List.take_left P rest).symm
        rw [hE] at h1
        simpa using h1
      obtain ⟨k, hkk⟩ : ∃ k, P.length = k + 1 := ⟨P.length - 1, by omega⟩
      have hPcons : P = 2 :: (beBytes 2 (S.ser m).length ++ S.ser m).take k := by
        rw [hPtake, hkk, List.take_succ_cons]
      have hlenP : P.length = k + 1 := hkk
      have hk3 : 3 ≤ k := by omega
      have hrest1 : 1 ≤ rest.length := List.length_pos.mpr hrest
      have hPlt : P.length < 3 + (S.ser m).length := by
        have := congrArg List.length hE
        simp only [List.length_append, List.length_cons, beBytes_length] at this
        omega
      unfold NetworkMessage.decode
      rw [if_neg (by omega : ¬ P.length ≤ 3)]
      have hget : P.getD 0 0 = 2 := by rw [hPcons]; rfl
      rw [hget, if_neg (by norm_num : ¬ (2 : Nat) = 0), if_pos (rfl : (2 : Nat) = 2)]
      unfold NetworkMessage.decodeFrame
      have hdrop1 : P.drop 1 = (beBytes 2 (S.ser m).length ++ S.ser m).take k := by
        rw [hPcons]; rfl
      have htake2 : (P.drop 1).take 2 = beBytes 2 (S.ser m).length := by
        rw [hdrop1, List.take_take, Nat.min_eq_left (by omega : 2 ≤ k),
          List.take_left' (beBytes_length 2 (S.ser m).length)]
      rw [htake2, readBE_beBytes_of_lt 2 (S.ser m).length (by norm_num at hsmall ⊢; exact hsmall)]
      rw [if_pos (by omega : P.length < 1 + 2 + (S.ser m).length)]
  · obtain ⟨f, he, hd⟩ := decode_encode_aux S m [] hde hlen (by norm_num at hsmall ⊢; omega)
    have hf : f = P ++ rest := by
      have h := he.symm.trans hframe
      exact (Except.ok.injEq _ _).mp h
    rw [hf, List.append_nil] at hd
    exact hd

/-- Witness for decode_strict_prefix_tag2: the strict prefix [2,0,4,5,1]
of the 7-byte frame for message 5. -/
theorem decode_strict_prefix_tag2_witness :
    (SNat.de (SNat.ser 5) = some 5 ∧ 1 ≤ (SNat.ser 5).length ∧
      (SNat.ser 5).length < 2 ^ 16 ∧
      NetworkMessage.encode SNat 5 [] = .ok ([2, 0, 4, 5, 1] ++ [2, 3]) ∧
      ([2, 3] : List Nat) ≠ []) ∧
    (NetworkMessage.decode SNat [2, 0, 4, 5, 1] = .ok (none, [2, 0, 4, 5, 1]) ∧
      NetworkMessage.decode SNat ([2, 0, 4, 5, 1] ++ [2, 3]) = .ok (some 5, [])) :=
  ⟨⟨by decide, by decide, by decide, by decide, by decide⟩,
    decode_strict_prefix_tag2 SNat 5 [2, 0, 4, 5, 1] [2, 3]
      (by decide) (by decide) (by decide) (by decide) (by decide)⟩

/-- C7 counterexample: a buffer of four zero bytes has len_tag 0 and is
long enough for decode to inspect it, yet decode reports "need more data"
(Ok(None)), not a protocol error as the claim states. -/
theorem decode_zero_tag_need_more :
    NetworkMessage.decode SNat [0, 0, 0, 0] = .ok (none, [0, 0, 0, 0]) ∧
    ∀ e : CodecError, NetworkMessage.decode SNat [0, 0, 0, 0] ≠ .error e := by
  have h1 : NetworkMessage.decode SNat [0, 0, 0, 0] = .ok (none, [0, 0, 0, 0]) := by decide
  exact ⟨h1, fun e h => by rw [h1] at h; exact Except.noConfusion h⟩

/-- C7 amended: on a buffer long enough to inspect the tag byte, a zero
tag yields "need more data" (Ok(None)); any tag other than 0, 2, 4, 8 is
the InvalidLengthBye protocol error. -/
theorem decode_tag_classification {T : Type} (S : Serde T) (src : List Nat)
    (h4 : 4 ≤ src.length) :
    (src.getD 0 0 = 0 → NetworkMessage.decode S src = .ok (none, src)) ∧
    (src.getD 0 0 ≠ 0 → src.getD 0 0 ≠ 2 → src.getD 0 0 ≠ 4 → src.getD 0 0 ≠ 8 →
      NetworkMessage.decode S src = .error (.invalidLengthByte (src.getD 0 0))) := by
  have hn : ¬ src.length ≤ 3 := by omega
  constructor
  · intro h0
    unfold NetworkMessage.decode
    rw [if_neg hn]
    simp only [h0, if_pos]
  · intro h0 h2 hh4 h8
    unfold NetworkMessage.decode
    rw [if_neg hn]
    simp only [if_neg h0, if_neg h2, if_neg hh4, if_neg h8]

/-- Witness for decode_tag_classification at the buffer [5, 0, 0, 0]. -/
theorem decode_tag_classification_witness :
    (4 ≤ ([5, 0, 0, 0] : List Nat).length) ∧
    (([5, 0, 0, 0] : List Nat).getD 0 0 = 0 →
      NetworkMessage.decode SNat [5, 0, 0, 0] = .ok (none, [5, 0, 0, 0])) ∧
    (([5, 0, 0, 0] : List Nat).getD 0 0 ≠ 0 → ([5, 0, 0, 0] : List Nat).getD 0 0 ≠ 2 →
      ([5, 0, 0, 0] : List Nat).getD 0 0 ≠ 4 → ([5, 0, 0, 0] : List Nat).getD 0 0 ≠ 8 →
      NetworkMessage.decode SNat [5, 0, 0, 0]
        = .error (.invalidLengthByte (([5, 0, 0, 0] : List Nat).getD 0 0))) :=
  ⟨by decide,
    (decode_tag_classification SNat [5, 0, 0, 0] (by decide)).1,
    (decode_tag_classification SNat [5, 0, 0, 0] (by decide)).2⟩

/-! ### src/server/room.rs : levenshtein_distance -/

/-- Rust `char::to_ascii_lowercase`: ASCII uppercase letters are shifted
by 32, all other characters unchanged. -/
def toAsciiLowercase (c : Char) : Char :=
  if 'A' ≤ c ∧ c ≤ 'Z' then Char.ofNat (c.toNat + 32) else c

/-- Rust `char::eq_ignore_ascii_case`: equality after ASCII lowercasing. -/
def eqIgnoreAsciiCase (a b : Char) : Bool := toAsciiLowercase a = toAsciiLowercase b

/-- One step of the `for (j, i)` loop body of `levenshtein_distance`:
compute the cell value from the previous row and the growing current row,
then push it onto row `j`. Out-of-range indexing (which cannot occur on
the loop's index range) is modelled with getD defaults. -/
def dpStep (w1 w2 : List Char) (matrix : List (List Nat)) (ji : Nat × Nat) :
    List (List Nat) :=
  let j := ji.1
  let i := ji.2
  let x :=
    if eqIgnoreAsciiCase (w1.getD (i - 1) (Char.ofNat 0)) (w2.getD (j - 1) (Char.ofNat 0)) then
      (matrix.getD (j - 1) []).getD (i - 1) 0
    else
      1 + min (min ((matrix.getD j []).getD (i - 1) 0) ((matrix.getD (j - 1) []).getD i 0))
          ((matrix.getD (j - 1) []).getD (i - 1) 0)
  matrix.set j ((matrix.getD j []) ++ [x])

/-- room.rs: `levenshtein_distance` — the Wagner-Fischer dynamic program
exactly as written: row 0 is built by pushing 1..a_len-1 onto `[0]`, a
stub row `[j]` is pushed for every j in 1..b_len-1, and the flat_map loop
fills the matrix in row-major order; the result is the bottom-right cell. -/
def levenshtein_distance (a b : String) : Nat :=
  let w1 := a.data
  let w2 := b.data
  let aLen := w1.length + 1
  let bLen := w2.length + 1
  let m0 := (List.range' 1 (aLen - 1)).foldl
    (fun m i => m.set 0 ((m.getD 0 []) ++ [i])) [[0]]
  let m1 := (List.range' 1 (bLen - 1)).foldl (fun m j => m ++ [[j]]) m0
  let pairs := (List.range' 1 (bLen - 1)).flatMap
    (fun j => (List.range' 1 (aLen - 1)).map (fun i => (j, i)))
  let mfin := pairs.foldl (dpStep w1 w2) m1
  (mfin.getD (bLen - 1) []).getD (aLen - 1) 0

/-- Reference Levenshtein edit distance, the textbook recursion with unit
costs, comparing characters with the given test. -/
def levWith (eq : Char → Char → Bool) : List Char → List Char → Nat
  | [], ys => ys.length
  | _ :: xs, [] => xs.length + 1
  | x :: xs, y :: ys =>
    if eq x y then levWith eq xs ys
    else 1 + min (min (levWith eq xs (y :: ys)) (levWith eq (x :: xs) ys))
        (levWith eq xs ys)
termination_by xs ys => xs.length + ys.length

/-- The reference edit distance over case-folded characters: plain
character equality after mapping both strings through ASCII lowercasing. -/
def levRefFolded (a b : String) : Nat :=
  levWith (fun x y => x = y) (a.data.map toAsciiLowercase) (b.data.map toAsciiLowercase)

/-! ### src/server/room.rs : the turn engine (Skribbl) and game room -/

/-- The cycling word iterator `custom_words.clone().into_iter().cycle()`:
`list` is the cycled list and `pos` counts the values already yielded. -/
structure WordsIter where
  list : List String
  pos : Nat
deriving DecidableEq, Repr

/-- `Iterator::next` on the cycle: none only when the underlying list is
empty, otherwise the element at pos mod length. -/
def WordsIter.next (it : WordsIter) : Option (String × WordsIter) :=
  if it.list.isEmpty then none
  else some (it.list.getD (it.pos % it.list.length) "", ⟨it.list, it.pos + 1⟩)

/-- room.rs: `pub struct Skribbl`. -/
structure Skribbl where
  game : Game
  currentWord : String
  playersLeftInRound : List Username
  words : WordsIter
deriving DecidableEq, Repr

/-- room.rs: `Skribbl::new` — note that the source shuffles a clone of
`custom_words` but then builds the cycle from a fresh (unshuffled) clone,
so the iterator cycles the configured list itself. -/
def Skribbl.new (opts : GameOpts) : Skribbl :=
  { game :=
      { dimensions := opts.dimensions
        turn :=
          { lastRound := opts.numberOfRounds
            state := .Drawing
            word := .Draw ""
            endInstant := 0
            currentRound := 0 }
        canvas := HMap.empty }
    currentWord := ""
    playersLeftInRound := []
    words := ⟨opts.customWords, 0⟩ }

/-- room.rs: `Skribbl::get_drawing_player` — the drawer id from the Guess
variant; the Draw variant hits `unreachable!()`, modelled as none. -/
def Skribbl.getDrawingPlayer (s : Skribbl) : Option PlayerId :=
  match s.game.turn.word with
  | .Guess _ who _ => some who.id
  | .Draw _ => none

/-- The two panics `Skribbl::next_turn` can hit. -/
inductive NextTurnPanic where
  | wordExhausted : NextTurnPanic
  | noPlayersLeft : NextTurnPanic
deriving DecidableEq, Repr

/-- room.rs: `Skribbl::next_turn` — `self.current_word = words.next().unwrap()`
(panics when the cycled word list is empty), then
`players_left_in_round.remove(0)` (panics when no player is left) and the
From-impl builds the Guess word for the new drawer. -/
def Skribbl.nextTurn (s : Skribbl) : Except NextTurnPanic Skribbl :=
  match s.words.next with
  | none => .error .wordExhausted
  | some (word, words') =>
    match s.playersLeftInRound with
    | [] => .error .noPlayersLeft
    | who :: restPlayers =>
      .ok { s with
        currentWord := word
        words := words'
        playersLeftInRound := restPlayers
        game := { s.game with
          turn := { s.game.turn with word := DrawingWord.fromWord who word } } }

/-- room.rs: `Skribbl::start_round` — bump the round counter, snapshot the
player list, and run next_turn. -/
def Skribbl.start_round (players : List Player) (s : Skribbl) : Except NextTurnPanic Skribbl :=
  Skribbl.nextTurn
    { s with
      game := { s.game with
        turn := { s.game.turn with currentRound := s.game.turn.currentRound + 1 } }
      playersLeftInRound := players.map (·.name) }

/-- usize::MAX: `!hints.len()` on a 64-bit usize is `2^64 - 1 - hints.len()`. -/
def usizeMax : Nat := 2 ^ 64 - 1

/-- room.rs: `Skribbl::reveal_random_char`, faithfully including the
source guard `if !hints.len() < word_length / 2 { return; }` in which `!`
is the BITWISE complement of the usize `hints.len()`. The random
`choose` over the unrevealed characters is modelled by the `pick` index;
`choose(..).unwrap()` on an empty candidate set (every index already
revealed) panics, modelled as none, as does the `unreachable!()` for a
Draw-variant word. -/
def Skribbl.revealRandomChar (pick : Nat) (s : Skribbl) : Option Skribbl :=
  match s.game.turn.word with
  | .Draw _ => none
  | .Guess hints who wordLength =>
    if usizeMax - hints.size < wordLength / 2 then some s
    else
      let candidates := (s.currentWord.data.enum).filter (fun p => ¬ (hints.contains p.1))
      match candidates.get? (pick % candidates.length) with
      | none => none
      | some (idx, ch) =>
        some { s with game := { s.game with turn := { s.game.turn with
          word := .Guess (hints.insert idx ch) who wordLength } } }

/-- room.rs: `calculate_score_increase`; `timeFrac` stands for the u32
value of the f64 cast `((remaining_time as f64 / ROUND_DURATION as f64) * 100f64) as u32`
(floating point, and the cli module holding ROUND_DURATION, are outside
src); the `_is_drawing` argument is unused by the source. -/
def calculate_score_increase (timeFrac : Nat) : Nat := 50 + timeFrac / 2

/-- room.rs: `Skribbl::do_guess` — the Levenshtein distance of the guess
to the current word; on distance 0 the player's score is increased by
`50 + calculate_score_increase(..)` (whose evaluation calls `is_drawing`,
panicking on a Draw-variant word, modelled as none). The player flag
`solved_current_round` is NOT touched. -/
def Skribbl.do_guess (timeFrac : Nat) (s : Skribbl) (player : Player) (guess : String) :
    Option (Nat × Player) :=
  let dist := levenshtein_distance guess s.currentWord
  if dist = 0 then
    match s.getDrawingPlayer with
    | none => none
    | some _ =>
      some (dist, { player with score := player.score + (50 + calculate_score_increase timeFrac) })
  else
    some (dist, player)

/-- room.rs: `pub struct PlayerSession`; the flume address is modelled by
routing outgoing messages through the outbox of each operation. -/
structure PlayerSession where
  player : Player
deriving DecidableEq, Repr

/-- room.rs: `pub struct GameRoom`. -/
structure GameRoom where
  state : RoomState Skribbl
  gameOpts : GameOpts
  ownerId : Option PlayerId
  connectedSessions : HMap PlayerId PlayerSession
deriving DecidableEq, Repr

/-- Messages sent to sessions during one operation: (recipient id, payload). -/
abbrev Outbox := List (PlayerId × ToClient)

/-- room.rs: `GameRoom::broadcast` — one copy per connected session. -/
def GameRoom.broadcast (room : GameRoom) (msg : ToClient) : Outbox :=
  room.connectedSessions.map (fun p => (p.1, msg))

/-- room.rs: `GameRoom::broadcast_except`. -/
def GameRoom.broadcastExcept (room : GameRoom) (msg : ToClient) (playerId : PlayerId) : Outbox :=
  (room.connectedSessions.filter (fun p => ¬ p.1 = playerId)).map (fun p => (p.1, msg))

/-- room.rs: `GameRoom::send` — delivered only when the session exists. -/
def GameRoom.sendTo (room : GameRoom) (playerId : PlayerId) (msg : ToClient) : Outbox :=
  if room.connectedSessions.contains playerId then [(playerId, msg)] else []

/-- room.rs: `GameRoom::send_system_msg`. -/
def GameRoom.send_system_msg (room : GameRoom) (playerId : PlayerId) (msg : String) : Outbox :=
  room.sendTo playerId (ToClient.Chat (ChatMessage.System msg))

/-- room.rs: `GameRoom::broadcast_system_msg`. -/
def GameRoom.broadcast_system_msg (room : GameRoom) (msg : String) : Outbox :=
  room.broadcast (ToClient.Chat (ChatMessage.System msg))

/-- room.rs: `GameRoom::on_paint_msg` — in a Playing room, a draw action
is dropped unless the sender is the current drawer (`is_drawing` panics on
a Draw-variant word, modelled as none); the drawer's action is applied to
the canvas and broadcast to everyone else. Outside Playing it is a no-op. -/
def GameRoom.on_paint_msg (room : GameRoom) (senderId : PlayerId) (drawAction : Draw) :
    Option (GameRoom × Outbox) :=
  match room.state with
  | .Playing sk =>
    match sk.getDrawingPlayer with
    | none => none
    | some d =>
      if ¬ (d = senderId) then some (room, [])
      else
        let canvas := sk.game.canvas
        let canvas' :=
          match drawAction with
          | .Clear => canvas.clear
          | .Paint points color => points.foldl (fun c p => c.insert p color) canvas
          | .Erase p => canvas.remove p
        let room' := { room with
          state := .Playing { sk with game := { sk.game with canvas := canvas' } } }
        some (room', room'.broadcastExcept (ToClient.Draw drawAction) senderId)
  | _ => some (room, [])

/-- room.rs: `GameRoom::on_chat_msg`. In a Playing room the sender's
session is looked up (`unwrap` panics when absent, modelled as none) and
`player_can_guess` is computed (`is_drawing` panics on a Draw-variant
word). A guessing player's message goes through do_guess: distance 0
broadcasts the system message `<name> guessed it!`, distance 1 sends the
private very-close hint to the sender only, anything else broadcasts the
chat; a non-guessing sender's text goes only to the non-guessing players.
Outside Playing the chat is broadcast. -/
def GameRoom.on_chat_msg (timeFrac : Nat) (room : GameRoom) (sender : Username)
    (chatMsg : String) : Option (GameRoom × Outbox) :=
  match room.state with
  | .Playing sk =>
    match room.connectedSessions.get? sender.id with
    | none => none
    | some session =>
      match sk.getDrawingPlayer with
      | none => none
      | some d =>
        if ¬ (d = sender.id ∨ session.player.solvedCurrentRound) then
          match sk.do_guess timeFrac session.player chatMsg with
          | none => none
          | some (dist, player') =>
            let room' := { room with
              connectedSessions :=
                room.connectedSessions.insert sender.id { player := player' } }
            let out :=
              if dist = 0 then
                room'.broadcast_system_msg (sender.name ++ " guessed it!")
              else if dist = 1 then
                room'.send_system_msg sender.id "You're very close!"
              else
                room'.broadcast (ToClient.Chat (ChatMessage.User sender chatMsg))
            some (room', out)
        else
          let nonGuessing := room.connectedSessions.filter
            (fun p => p.2.player.solvedCurrentRound || d = p.2.player.name.id)
          some (room,
            nonGuessing.map (fun p => (p.1, ToClient.Chat (ChatMessage.User sender chatMsg))))
  | _ => some (room, room.broadcast (ToClient.Chat (ChatMessage.User sender chatMsg)))

/-- States of the turn engine reachable from `Skribbl::new` through
`start_round` and `next_turn`. -/
inductive ReachableSkribbl (opts : GameOpts) : Skribbl → Prop where
  | base : ReachableSkribbl opts (Skribbl.new opts)
  | stepTurn (s s' : Skribbl) : ReachableSkribbl opts s →
      s.nextTurn = .ok s' → ReachableSkribbl opts s'
  | stepRound (s s' : Skribbl) (players : List Player) : ReachableSkribbl opts s →
      s.start_round players = .ok s' → ReachableSkribbl opts s'

/-! ### Demo states shared by concrete evaluations -/

/-- A demo configuration: 3 rounds, 60 second rounds, word list [apple]. -/
def optsDemo : GameOpts := ⟨(100, 50), 3, 60, 8, ["apple"], true⟩

/-- The demo configuration with an empty word list. -/
def optsEmptyWords : GameOpts := ⟨(100, 50), 3, 60, 8, [], true⟩

/-- Mid-turn turn-engine state: word "apple", drawer A (id 1). -/
def skDemo : Skribbl :=
  { game :=
      { dimensions := (100, 50)
        canvas := HMap.empty
        turn :=
          { state := .Drawing
            word := DrawingWord.fromWord ⟨"A", 1⟩ "apple"
            endInstant := 60
            currentRound := 1
            lastRound := 3 } }
    currentWord := "apple"
    playersLeftInRound := []
    words := ⟨["apple"], 1⟩ }

/-- A Playing room: players A (id 1, drawing) and B (id 2, guessing). -/
def roomDemo : GameRoom :=
  { state := .Playing skDemo
    gameOpts := optsDemo
    ownerId := none
    connectedSessions := [(1, ⟨⟨0, ⟨"A", 1⟩, false⟩⟩), (2, ⟨⟨0, ⟨"B", 2⟩, false⟩⟩)] }

/-- Turn state for the hint-cap claim: word "abcd", nothing pre-revealed. -/
def revealDemo : Skribbl :=
  { game :=
      { dimensions := (10, 10)
        canvas := HMap.empty
        turn :=
          { state := .Drawing
            word := DrawingWord.fromWord ⟨"A", 1⟩ "abcd"
            endInstant := 0
            currentRound := 1
            lastRound := 3 } }
    currentWord := "abcd"
    playersLeftInRound := []
    words := ⟨["abcd"], 1⟩ }

/-- The number of revealed non-whitespace hint characters of a turn word. -/
def DrawingWord.revealedNonWhitespace : DrawingWord → Nat
  | .Guess hints _ _ => (hints.filter (fun p => ¬ p.2.isWhitespace)).length
  | .Draw _ => 0

/-! ### Further HMap lemmas -/

theorem HMap.contains_insert_self {α β : Type} [DecidableEq α] (m : HMap α β) (k : α) (v : β) :
    (m.insert k v).contains k = true := by
  have h := HMap.get?_insert_self m k v
  unfold HMap.get? at h
  unfold HMap.contains
  rcases hf : (m.insert k v).find? (fun p => decide (p.1 = k)) with _ | p
  · rw [hf] at h; cases h
  · have hmem := List.mem_of_find?_eq_some hf
    have hp := List.find?_some hf
    rw [List.any_eq_true]
    exact ⟨p, hmem, hp⟩

theorem HMap.get?_foldl_insert (points : List Coord) (color : Color)
    (c : HMap Coord Color) (q : Coord) :
    (points.foldl (fun c p => c.insert p color) c).get? q
      = if q ∈ points then some color else c.get? q := by
  induction points generalizing c with
  | nil => simp
  | cons p ps ih =>
    simp only [List.foldl_cons]
    rw [ih]
    by_cases hq : q ∈ ps
    · simp [hq]
    · simp only [if_neg hq]
      by_cases hqp : q = p
      · subst hqp
        rw [HMap.get?_insert_self]
        simp
      · rw [HMap.get?_insert_ne _ _ _ _ hqp]
        simp [List.mem_cons, hqp, hq]

/-! ### C4: the hint cap -/

/-- C4: the code at the failing input. Starting from a turn on the
four-letter word "abcd" with nothing revealed, three consecutive
reveal_random_char calls succeed and leave THREE revealed non-whitespace
hint characters, exceeding the claimed cap of 4/2 = 2: the source guard
`!hints.len() < word_length / 2` takes the bitwise complement of the
usize, so it never blocks a reveal. -/
theorem reveal_random_char_exceeds_half :
    ((((Skribbl.revealRandomChar 0 revealDemo).bind (Skribbl.revealRandomChar 0)).bind
        (Skribbl.revealRandomChar 0)).map
      (fun s => DrawingWord.revealedNonWhitespace s.game.turn.word)) = some 3 ∧
    "abcd".length / 2 < 3 :=
  ⟨by decide, by decide⟩

/-! ### C10: the word supply of next_turn -/

theorem nextTurn_words_list (s s' : Skribbl) (h : s.nextTurn = .ok s') :
    s'.words.list = s.words.list := by
  unfold Skribbl.nextTurn WordsIter.next at h
  by_cases he : s.words.list.isEmpty
  · rw [if_pos he] at h; cases h
  · rw [if_neg he] at h
    cases hp : s.playersLeftInRound with
    | nil => rw [hp] at h; cases h
    | cons who rest =>
      rw [hp] at h
      cases h
      rfl

theorem reachable_words_list (opts : GameOpts) (s : Skribbl) (h : ReachableSkribbl opts s) :
    s.words.list = opts.customWords := by
  induction h with
  | base => rfl
  | stepTurn s s' hr hstep ih => rw [nextTurn_words_list s s' hstep, ih]
  | stepRound s s' players hr hstep ih =>
    unfold Skribbl.start_round at hstep
    have := nextTurn_words_list _ _ hstep
    rw [this, ih]

/-- C10: in every reachable turn-engine state, if the configured word list
is non-empty the cycling word iterator always yields a word and next_turn
never panics on the word unwrap; with an empty word list, next_turn hits
exactly that unwrap (modelled as the wordExhausted panic). -/
theorem nextTurn_word_supply (opts : GameOpts) (s : Skribbl)
    (h : ReachableSkribbl opts s) :
    (opts.customWords ≠ [] →
      (s.words.next).isSome = true ∧ s.nextTurn ≠ .error .wordExhausted) ∧
    (opts.customWords = [] → s.nextTurn = .error .wordExhausted) := by
  have hlist := reachable_words_list opts s h
  constructor
  · intro hne
    have hempty : s.words.list.isEmpty = false := by
      rw [hlist]
      cases hw : opts.customWords with
      | nil => exact absurd hw hne
      | cons a l => rfl
    constructor
    · unfold WordsIter.next
      rw [hempty]
      simp
    · unfold Skribbl.nextTurn WordsIter.next
      rw [hempty]
      simp only [Bool.false_eq_true, if_false]
      cases s.playersLeftInRound with
      | nil => intro hc; cases hc
      | cons who rest => intro hc; cases hc
  · intro hemp
    unfold Skribbl.nextTurn WordsIter.next
    rw [hlist, hemp]
    rfl

/-- Witness for nextTurn_word_supply: the fresh game over [apple] has a
word available; the fresh game over the empty list panics on the unwrap. -/
theorem nextTurn_word_supply_witness :
    ((((Skribbl.new optsDemo).words.next).isSome = true ∧
      (Skribbl.new optsDemo).nextTurn ≠ .error .wordExhausted) ∧
    (Skribbl.new optsEmptyWords).nextTurn = .error .wordExhausted) :=
  ⟨(nextTurn_word_supply optsDemo _ ReachableSkribbl.base).1 (by decide),
    (nextTurn_word_supply optsEmptyWords _ ReachableSkribbl.base).2 rfl⟩

/-! ### C6: the single-drawer guard of on_paint_msg -/

/-- C6: in a Playing room mid-turn (the word in its Guess form naming the
drawer), a draw action from any sender other than the drawer is silently
discarded — the room, and so the canvas, is returned unchanged and no
message goes out; the drawer's own action is applied to the canvas (clear
empties it, paint maps every painted point to the color, erase removes
the point) and is broadcast to the other members. -/
theorem on_paint_msg_drawer_guard (room : GameRoom) (sk : Skribbl) (d senderId : PlayerId)
    (a : Draw) (hstate : room.state = .Playing sk) (hdraw : sk.getDrawingPlayer = some d) :
    (d ≠ senderId → room.on_paint_msg senderId a = some (room, [])) ∧
    (d = senderId → ∃ sk',
      room.on_paint_msg senderId a
        = some ({ room with state := .Playing sk' },
            GameRoom.broadcastExcept { room with state := .Playing sk' }
              (ToClient.Draw a) senderId) ∧
      sk'.game.turn = sk.game.turn ∧
      sk'.currentWord = sk.currentWord ∧
      (∀ q : Coord, sk'.game.canvas.get? q =
        match a with
        | .Clear => none
        | .Paint points color => if q ∈ points then some color else sk.game.canvas.get? q
        | .Erase p => if q = p then none else sk.game.canvas.get? q)) := by
  constructor
  · intro hne
    simp only [GameRoom.on_paint_msg, hstate, hdraw]
    rw [if_pos hne]
  · intro heq
    subst heq
    cases a with
    | Clear =>
      refine ⟨{ sk with game := { sk.game with canvas := sk.game.canvas.clear } },
        ?_, rfl, rfl, ?_⟩
      · simp only [GameRoom.on_paint_msg, hstate, hdraw]
        simp
      · intro q
        show (sk.game.canvas.clear).get? q = (none : Option Color)
        exact HMap.get?_clear sk.game.canvas q
    | Paint points color =>
      refine ⟨{ sk with game := { sk.game with
          canvas := points.foldl (fun c p => c.insert p color) sk.game.canvas } },
        ?_, rfl, rfl, ?_⟩
      · simp only [GameRoom.on_paint_msg, hstate, hdraw]
        simp
      · intro q
        show (points.foldl (fun c p => c.insert p color) sk.game.canvas).get? q
          = if q ∈ points then some color else sk.game.canvas.get? q
        exact HMap.get?_foldl_insert points color sk.game.canvas q
    | Erase p =>
      refine ⟨{ sk with game := { sk.game with canvas := sk.game.canvas.remove p } },
        ?_, rfl, rfl, ?_⟩
      · simp only [GameRoom.on_paint_msg, hstate, hdraw]
        simp
      · intro q
        show (sk.game.canvas.remove p).get? q
          = if q = p then none else sk.game.canvas.get? q
        by_cases hq : q = p
        · subst hq
          simp only [if_pos rfl]
          exact HMap.get?_remove_self sk.game.canvas q
        · simp only [if_neg hq]
          exact HMap.get?_remove_ne sk.game.canvas p q hq

/-- Witness for on_paint_msg_drawer_guard in the demo room (drawer id 1),
exercised for the non-drawer sender 2 and the drawer itself. -/
theorem on_paint_msg_drawer_guard_witness :
    (roomDemo.state = .Playing skDemo ∧ skDemo.getDrawingPlayer = some 1) ∧
    ((1 : PlayerId) ≠ 2 → roomDemo.on_paint_msg 2 (Draw.Erase (3, 4)) = some (roomDemo, [])) ∧
    ((1 : PlayerId) = 1 → ∃ sk',
      roomDemo.on_paint_msg 1 (Draw.Erase (3, 4))
        = some ({ roomDemo with state := .Playing sk' },
            GameRoom.broadcastExcept { roomDemo with state := .Playing sk' }
              (ToClient.Draw (Draw.Erase (3, 4))) 1) ∧
      sk'.game.turn = skDemo.game.turn ∧
      sk'.currentWord = skDemo.currentWord ∧
      (∀ q : Coord, sk'.game.canvas.get? q =
        match Draw.Erase (3, 4) with
        | .Clear => none
        | .Paint points color => if q ∈ points then some color else skDemo.game.canvas.get? q
        | .Erase p => if q = p then none else skDemo.game.canvas.get? q)) :=
  ⟨⟨rfl, rfl⟩,
    (on_paint_msg_drawer_guard roomDemo skDemo 1 2 (Draw.Erase (3, 4)) rfl rfl).1,
    (on_paint_msg_drawer_guard roomDemo skDemo 1 1 (Draw.Erase (3, 4)) rfl rfl).2⟩

/-! ### C9: distance-1 guesses get a private hint only -/

/-- C9: in a Playing room, when a non-drawing, not-yet-solved player's
chat message is at Levenshtein distance exactly 1 from the secret word,
the operation produces exactly one outgoing message: the private system
hint to that sender; nothing is broadcast to anyone else. -/
theorem on_chat_close_guess_private_hint (timeFrac : Nat) (room : GameRoom) (sk : Skribbl)
    (sender : Username) (chatMsg : String) (d : PlayerId) (sess : PlayerSession)
    (hstate : room.state = .Playing sk)
    (hsess : room.connectedSessions.get? sender.id = some sess)
    (hdraw : sk.getDrawingPlayer = some d)
    (hnotdraw : d ≠ sender.id)
    (hnotsolved : sess.player.solvedCurrentRound = false)
    (hdist : levenshtein_distance chatMsg sk.currentWord = 1) :
    ∃ room', room.on_chat_msg timeFrac sender chatMsg
      = some (room', [(sender.id, ToClient.Chat (ChatMessage.System "You're very close!"))]) := by
  have hguess : sk.do_guess timeFrac sess.player chatMsg = some (1, sess.player) := by
    unfold Skribbl.do_guess
    rw [hdist]
    simp
  refine ⟨{ room with
    connectedSessions := room.connectedSessions.insert sender.id ⟨sess.player⟩ }, ?_⟩
  simp only [GameRoom.on_chat_msg, hstate, hsess, hdraw]
  rw [if_pos (by simp [hnotdraw, hnotsolved])]
  simp only [hguess]
  simp [GameRoom.send_system_msg, GameRoom.sendTo, HMap.contains_insert_self]

/-- Witness for on_chat_close_guess_private_hint: guesser B sends "aple"
(distance 1 from "apple") in the demo room. -/
theorem on_chat_close_guess_private_hint_witness :
    (roomDemo.state = .Playing skDemo ∧
      roomDemo.connectedSessions.get? 2 = some ⟨⟨0, ⟨"B", 2⟩, false⟩⟩ ∧
      skDemo.getDrawingPlayer = some 1 ∧
      (1 : PlayerId) ≠ 2 ∧
      levenshtein_distance "aple" skDemo.currentWord = 1) ∧
    (∃ room', GameRoom.on_chat_msg 40 roomDemo ⟨"B", 2⟩ "aple"
      = some (room', [(2, ToClient.Chat (ChatMessage.System "You're very close!"))])) :=
  ⟨⟨rfl, by decide, rfl, by decide, by decide⟩,
    on_chat_close_guess_private_hint 40 roomDemo skDemo ⟨"B", 2⟩ "aple" 1 ⟨⟨0, ⟨"B", 2⟩, false⟩⟩
      rfl (by decide) rfl (by decide) rfl (by decide)⟩

/-! ### C5: a correct guess scores but the solved flag stays false -/

/-- C5: the code at the failing input. In the demo room (round_duration
60, drawer A, guesser B, secret word "apple"), guesser B sends exactly
the secret word: B's score rises from 0 to 120 (an increase of at least
50) and the system message "B guessed it!" is broadcast to BOTH members —
but B's solved_current_round flag remains false, although the claim (and
the spec's "mark the player as solved") requires it to become true:
neither do_guess nor on_chat_msg ever assigns the flag. -/
theorem correct_guess_scores_without_solved_flag :
    (GameRoom.on_chat_msg 40 roomDemo ⟨"B", 2⟩ "apple").map
        (fun r =>
          ((r.1.connectedSessions.get? 2).map
            (fun s => (s.player.score, s.player.solvedCurrentRound)), r.2))
      = some (some (120, false),
          [(1, ToClient.Chat (ChatMessage.System "B guessed it!")),
           (2, ToClient.Chat (ChatMessage.System "B guessed it!"))]) ∧
    50 ≤ 120 - 0 :=
  ⟨by decide, by decide⟩

/-! ### C8: the dynamic program equals the reference edit distance -/

theorem levWith_nil_left (eq : Char → Char → Bool) (ys : List Char) :
    levWith eq [] ys = ys.length := by
  cases ys <;> simp [levWith]

theorem levWith_cons_nil (eq : Char → Char → Bool) (x : Char) (xs : List Char) :
    levWith eq (x :: xs) [] = xs.length + 1 := by
  simp [levWith]

theorem levWith_nil_right (eq : Char → Char → Bool) (xs : List Char) :
    levWith eq xs [] = xs.length := by
  cases xs with
  | nil => simp [levWith]
  | cons x xs => rw [levWith_cons_nil]; rfl

theorem levWith_cons_cons (eq : Char → Char → Bool) (x y : Char) (xs ys : List Char) :
    levWith eq (x :: xs) (y :: ys) =
      if eq x y then levWith eq xs ys
      else 1 + min (min (levWith eq xs (y :: ys)) (levWith eq (x :: xs) ys))
          (levWith eq xs ys) := by
  simp [levWith]

theorem levWith_append_aux (eq : Char → Char → Bool) (x y : Char) :
    ∀ (n : Nat) (xs ys : List Char), xs.length + ys.length ≤ n →
      levWith eq (xs ++ [x]) (ys ++ [y]) =
        if eq x y then levWith eq xs ys
        else 1 + min (min (levWith eq xs (ys ++ [y])) (levWith eq (xs ++ [x]) ys))
            (levWith eq xs ys) := by
  intro n
  induction n with
  | zero =>
    intro xs ys hlen
    match xs, ys with
    | [], [] =>
      simp only [List.nil_append, levWith_cons_cons, levWith_nil_left, levWith_cons_nil]
    | [], b :: ys' => simp at hlen
    | a :: xs', ys => simp at hlen
  | succ n ih =>
    intro xs ys hlen
    match xs, ys with
    | [], [] =>
      simp only [List.nil_append, levWith_cons_cons, levWith_nil_left, levWith_cons_nil]
    | [], b :: ys' =>
      have IH1 := ih [] ys' (by simp at hlen ⊢; omega)
      simp only [List.nil_append] at IH1
      simp only [List.nil_append, List.cons_append, levWith_cons_cons, IH1,
        levWith_nil_left, List.length_append, List.length_cons, List.length_nil]
      cases hxb : eq x b <;> cases hxy : eq x y <;>
        simp only [if_true, if_false, Bool.false_eq_true, Bool.true_eq_false] <;> omega
    | a :: xs', [] =>
      have IH1 := ih xs' [] (by simp at hlen ⊢; omega)
      simp only [List.nil_append] at IH1
      simp only [List.nil_append, List.cons_append, levWith_cons_cons, IH1,
        levWith_nil_right, List.length_append, List.length_cons, List.length_nil]
      cases hay : eq a y <;> cases hxy : eq x y <;>
        simp only [if_true, if_false, Bool.false_eq_true, Bool.true_eq_false] <;> omega
    | a :: xs', b :: ys' =>
      have IHP := ih xs' (b :: ys') (by simp at hlen ⊢; omega)
      have IHQ := ih (a :: xs') ys' (by simp at hlen ⊢; omega)
      have IHR := ih xs' ys' (by simp at hlen ⊢; omega)
      simp only [List.cons_append] at IHP IHQ IHR ⊢
      rw [levWith_cons_cons eq a b (xs' ++ [x]) (ys' ++ [y]), IHR, IHP, IHQ,
        levWith_cons_cons eq a b xs' (ys' ++ [y]),
        levWith_cons_cons eq a b (xs' ++ [x]) ys',
        levWith_cons_cons eq a b xs' ys']
      by_cases hab : eq a b = true
      · by_cases hxy : eq x y = true
        · simp only [if_pos hab, if_pos hxy]
        · simp only [if_pos hab, if_neg hxy]
      · by_cases hxy : eq x y = true
        · simp only [if_neg hab, if_pos hxy]
        · simp only [if_neg hab, if_neg hxy]
          have dist : ∀ p q r : Nat,
              min (min (1 + p) (1 + q)) (1 + r) = 1 + min (min p q) r := by
            intro p q r; omega
          rw [dist, dist]
          have hperm :
              min
                (min (min (min (levWith eq xs' (b :: (ys' ++ [y])))
                      (levWith eq (xs' ++ [x]) (b :: ys')))
                    (levWith eq xs' (b :: ys')))
                  (min (min (levWith eq (a :: xs') (ys' ++ [y]))
                      (levWith eq (a :: (xs' ++ [x])) ys'))
                    (levWith eq (a :: xs') ys')))
                (min (min (levWith eq xs' (ys' ++ [y])) (levWith eq (xs' ++ [x]) ys'))
                  (levWith eq xs' ys'))
              =
              min
                (min (min (min (levWith eq xs' (b :: (ys' ++ [y])))
                      (levWith eq (a :: xs') (ys' ++ [y])))
                    (levWith eq xs' (ys' ++ [y])))
                  (min (min (levWith eq (xs' ++ [x]) (b :: ys'))
                      (levWith eq (a :: (xs' ++ [x])) ys'))
                    (levWith eq (xs' ++ [x]) ys')))
                (min (min (levWith eq xs' (b :: ys')) (levWith eq (a :: xs') ys'))
                  (levWith eq xs' ys')) := by
            ac_rfl
          rw [hperm]

theorem levWith_append (eq : Char → Char → Bool) (x y : Char) (xs ys : List Char) :
    levWith eq (xs ++ [x]) (ys ++ [y]) =
      if eq x y then levWith eq xs ys
      else 1 + min (min (levWith eq xs (ys ++ [y])) (levWith eq (xs ++ [x]) ys))
          (levWith eq xs ys) :=
  levWith_append_aux eq x y (xs.length + ys.length) xs ys le_rfl

/-- Row j of the finished DP matrix: cell i holds the distance of the
first i characters of w1 to the first j characters of w2. -/
def fullRow (w1 w2 : List Char) (j : Nat) : List Nat :=
  (List.range (w1.length + 1)).map
    (fun i => levWith eqIgnoreAsciiCase (w1.take i) (w2.take j))

theorem dp_row0 (n : Nat) :
    (List.range' 1 n).foldl (fun m i => m.set 0 ((m.getD 0 []) ++ [i])) [[0]]
      = [List.range (n + 1)] := by
  induction n with
  | zero => rfl
  | succ n ih =>
    rw [List.range'_concat, List.foldl_append, ih]
    show [List.range (n + 1) ++ [1 + 1 * n]] = [List.range (n + 1 + 1)]
    have h1 : 1 + 1 * n = n + 1 := by omega
    rw [h1, show List.range (n + 1 + 1) = List.range (n + 1) ++ [n + 1] from
      List.range_succ (n + 1)]

theorem foldl_push {α β : Type} (f : β → α) (l : List β) (m0 : List α) :
    l.foldl (fun m j => m ++ [f j]) m0 = m0 ++ l.map f := by
  induction l generalizing m0 with
  | nil => simp
  | cons a l ih => simp [ih]

theorem dp_set_append {α : Type} (front : List α) (curr v : α) (tail : List α) :
    (front ++ curr :: tail).set front.length v = front ++ v :: tail := by
  induction front with
  | nil => rfl
  | cons a front ih => simp [List.set, ih]

theorem dp_getD_at (front : List (List Nat)) (curr : List Nat) (tail : List (List Nat)) :
    (front ++ curr :: tail).getD front.length [] = curr := by
  rw [List.getD_append_right _ _ _ _ le_rfl]
  simp

theorem dp_getD_front (front : List (List Nat)) (curr : List Nat) (tail : List (List Nat))
    (i : Nat) (h : i < front.length) :
    (front ++ curr :: tail).getD i [] = front.getD i [] :=
  List.getD_append _ _ _ _ h

theorem getD_map_range {β : Type} (f : Nat → β) (d : β) (m i : Nat) (h : i < m) :
    ((List.range m).map f).getD i d = f i := by
  simp [List.getD_eq_getElem?_getD, List.getElem?_map, List.getElem?_range, h]

theorem fullRow_getD (w1 w2 : List Char) (j i : Nat) (h : i < w1.length + 1) :
    (fullRow w1 w2 j).getD i 0 = levWith eqIgnoreAsciiCase (w1.take i) (w2.take j) :=
  getD_map_range _ 0 _ i h

theorem fullRow_zero (w1 w2 : List Char) : fullRow w1 w2 0 = List.range (w1.length + 1) := by
  unfold fullRow
  have haux : ∀ m, m ≤ w1.length + 1 →
      (List.range m).map (fun i => levWith eqIgnoreAsciiCase (w1.take i) (w2.take 0))
        = List.range m := by
    intro m
    induction m with
    | zero => intro _; rfl
    | succ m ih =>
      intro hm
      rw [List.range_succ, List.map_append, ih (by omega)]
      simp only [List.map_cons, List.map_nil, List.take_zero, levWith_nil_right]
      rw [List.length_take, Nat.min_eq_left (by omega)]
  exact haux (w1.length + 1) le_rfl

theorem levTake_succ (w1 w2 : List Char) (i j : Nat) (hi : i < w1.length) (hj : j < w2.length) :
    levWith eqIgnoreAsciiCase (w1.take (i + 1)) (w2.take (j + 1)) =
      if eqIgnoreAsciiCase (w1.getD i (Char.ofNat 0)) (w2.getD j (Char.ofNat 0)) then
        levWith eqIgnoreAsciiCase (w1.take i) (w2.take j)
      else
        1 + min (min (levWith eqIgnoreAsciiCase (w1.take i) (w2.take (j + 1)))
            (levWith eqIgnoreAsciiCase (w1.take (i + 1)) (w2.take j)))
          (levWith eqIgnoreAsciiCase (w1.take i) (w2.take j)) := by
  have h1 : w1.take (i + 1) = w1.take i ++ [w1[i]] := by
    rw [← List.take_concat_get w1 i hi, List.concat_eq_append]
  have h2 : w2.take (j + 1) = w2.take j ++ [w2[j]] := by
    rw [← List.take_concat_get w2 j hj, List.concat_eq_append]
  have hg1 : w1.getD i (Char.ofNat 0) = w1[i] := List.getD_eq_getElem w1 _ hi
  have hg2 : w2.getD j (Char.ofNat 0) = w2[j] := List.getD_eq_getElem w2 _ hj
  rw [h1, h2, levWith_append, ← h1, ← h2, hg1, hg2]

theorem foldl_flatMap {α β γ : Type} (g : β → List γ) (f : α → γ → α) (l : List β)
    (init : α) :
    (l.flatMap g).foldl f init = l.foldl (fun acc j => (g j).foldl f acc) init := by
  induction l generalizing init with
  | nil => rfl
  | cons a l ih => rw [List.flatMap_cons, List.foldl_append, List.foldl_cons, ih]

theorem dp_inner (w1 w2 : List Char) (j : Nat) (hj1 : 1 ≤ j) (hj : j ≤ w2.length)
    (front : List (List Nat)) (hfl : front.length = j)
    (hfprev : front.getD (j - 1) [] = fullRow w1 w2 (j - 1))
    (tail : List (List Nat)) :
    ∀ (cnt start : Nat) (curr : List Nat), start + cnt = w1.length + 1 → 1 ≤ start →
      curr = (List.range start).map
        (fun i => levWith eqIgnoreAsciiCase (w1.take i) (w2.take j)) →
      (List.range' start cnt).foldl (fun m i => dpStep w1 w2 m (j, i)) (front ++ curr :: tail)
        = front ++ fullRow w1 w2 j :: tail := by
  intro cnt
  induction cnt with
  | zero =>
    intro start curr h1 h2 h3
    have hs : start = w1.length + 1 := by omega
    subst hs
    subst h3
    rfl
  | succ cnt ih =>
    intro start curr h1 h2 h3
    rw [List.range'_succ, List.foldl_cons]
    have hMj : (front ++ curr :: tail).getD j [] = curr := by
      rw [← hfl]
      exact dp_getD_at front curr tail
    have hMj1 : (front ++ curr :: tail).getD (j - 1) [] = fullRow w1 w2 (j - 1) := by
      rw [dp_getD_front front curr tail (j - 1) (by omega)]
      exact hfprev
    have hcurrD : curr.getD (start - 1) 0
        = levWith eqIgnoreAsciiCase (w1.take (start - 1)) (w2.take j) := by
      rw [h3]
      exact getD_map_range _ 0 start (start - 1) (by omega)
    have hprevD1 : (fullRow w1 w2 (j - 1)).getD (start - 1) 0
        = levWith eqIgnoreAsciiCase (w1.take (start - 1)) (w2.take (j - 1)) :=
      fullRow_getD w1 w2 (j - 1) (start - 1) (by omega)
    have hprevD2 : (fullRow w1 w2 (j - 1)).getD start 0
        = levWith eqIgnoreAsciiCase (w1.take start) (w2.take (j - 1)) :=
      fullRow_getD w1 w2 (j - 1) start (by omega)
    have hrec := levTake_succ w1 w2 (start - 1) (j - 1) (by omega) (by omega)
    have hs1 : start - 1 + 1 = start := by omega
    have hj1' : j - 1 + 1 = j := by omega
    rw [hs1, hj1'] at hrec
    have hstep : dpStep w1 w2 (front ++ curr :: tail) (j, start)
        = front ++ (curr ++ [levWith eqIgnoreAsciiCase (w1.take start) (w2.take j)]) :: tail := by
      show (front ++ curr :: tail).set j ((front ++ curr :: tail).getD j [] ++
          [if eqIgnoreAsciiCase (w1.getD (start - 1) (Char.ofNat 0))
              (w2.getD (j - 1) (Char.ofNat 0)) then
            ((front ++ curr :: tail).getD (j - 1) []).getD (start - 1) 0
          else
            1 + min (min (((front ++ curr :: tail).getD j []).getD (start - 1) 0)
                (((front ++ curr :: tail).getD (j - 1) []).getD start 0))
              (((front ++ curr :: tail).getD (j - 1) []).getD (start - 1) 0)])
          = front ++ (curr ++ [levWith eqIgnoreAsciiCase (w1.take start) (w2.take j)]) :: tail
      rw [hMj, hMj1, hcurrD, hprevD1, hprevD2, ← hrec, ← hfl, dp_set_append]
    rw [hstep]
    exact ih (start + 1) _ (by omega) (by omega)
      (by rw [List.range_succ, List.map_append, ← h3]; rfl)

theorem dp_outer (w1 w2 : List Char) :
    ∀ (cnt jstart : Nat), 1 ≤ jstart → jstart + cnt = w2.length + 1 →
      (List.range' jstart cnt).foldl
          (fun m j => (List.range' 1 w1.length).foldl (fun m' i => dpStep w1 w2 m' (j, i)) m)
          ((List.range jstart).map (fullRow w1 w2)
            ++ (List.range' jstart cnt).map (fun j => [j]))
        = (List.range (w2.length + 1)).map (fullRow w1 w2) := by
  intro cnt
  induction cnt with
  | zero =>
    intro jstart h1 h2
    have hj : jstart = w2.length + 1 := by omega
    subst hj
    simp
  | succ cnt ih =>
    intro jstart h1 h2
    rw [List.range'_succ]
    simp only [List.foldl_cons, List.map_cons]
    have hfront_len : ((List.range jstart).map (fullRow w1 w2)).length = jstart := by simp
    have hfrontD : ((List.range jstart).map (fullRow w1 w2)).getD (jstart - 1) []
        = fullRow w1 w2 (jstart - 1) := getD_map_range _ [] jstart (jstart - 1) (by omega)
    have hcurr : ([jstart] : List Nat) = (List.range 1).map
        (fun i => levWith eqIgnoreAsciiCase (w1.take i) (w2.take jstart)) := by
      show [jstart] = [levWith eqIgnoreAsciiCase (w1.take 0) (w2.take jstart)]
      rw [List.take_zero, levWith_nil_left, List.length_take, Nat.min_eq_left (by omega)]
    have hinner := dp_inner w1 w2 jstart h1 (by omega)
      ((List.range jstart).map (fullRow w1 w2)) hfront_len hfrontD
      ((List.range' (jstart + 1) cnt).map (fun j => [j]))
      w1.length 1 [jstart] (by omega) (by omega) hcurr
    rw [hinner]
    have ih' := ih (jstart + 1) (by omega) (by omega)
    rw [List.range_succ, List.map_append] at ih'
    simp only [List.map_cons, List.map_nil] at ih'
    rw [List.append_assoc] at ih'
    simp only [List.singleton_append] at ih'
    exact ih'

theorem levenshtein_eq_levWith (a b : String) :
    levenshtein_distance a b = levWith eqIgnoreAsciiCase a.data b.data := by
  have heq : levenshtein_distance a b =
      ((((List.range' 1 (b.data.length + 1 - 1)).flatMap
          (fun j => (List.range' 1 (a.data.length + 1 - 1)).map (fun i => (j, i)))).foldl
        (dpStep a.data b.data)
        ((List.range' 1 (b.data.length + 1 - 1)).foldl (fun m j => m ++ [[j]])
          ((List.range' 1 (a.data.length + 1 - 1)).foldl
            (fun m i => m.set 0 ((m.getD 0 []) ++ [i])) [[0]]))).getD
        (b.data.length + 1 - 1) []).getD (a.data.length + 1 - 1) 0 := rfl
  rw [heq]
  simp only [Nat.add_sub_cancel]
  rw [dp_row0, foldl_push, foldl_flatMap]
  simp only [List.foldl_map]
  have hinit : [List.range (a.data.length + 1)]
      = (List.range 1).map (fullRow a.data b.data) := by
    show [List.range (a.data.length + 1)] = [fullRow a.data b.data 0]
    rw [fullRow_zero]
  rw [hinit, dp_outer a.data b.data b.data.length 1 le_rfl (by omega),
    getD_map_range _ [] _ _ (by omega), fullRow_getD _ _ _ _ (by omega),
    List.take_length, List.take_length]

theorem levWith_map_fold :
    ∀ (n : Nat) (xs ys : List Char), xs.length + ys.length ≤ n →
      levWith eqIgnoreAsciiCase xs ys
        = levWith (fun x y => x = y) (xs.map toAsciiLowercase) (ys.map toAsciiLowercase) := by
  intro n
  induction n with
  | zero =>
    intro xs ys h
    match xs, ys with
    | [], [] => simp [levWith_nil_left]
    | [], _ :: _ => simp at h
    | _ :: _, _ => simp at h
  | succ n ih =>
    intro xs ys h
    match xs, ys with
    | [], ys => simp [levWith_nil_left]
    | x :: xs, [] => simp [List.map_cons, levWith_cons_nil, List.length_map]
    | x :: xs, y :: ys =>
      have e1 := ih xs ys (by simp at h ⊢; omega)
      have e2 := ih (x :: xs) ys (by simp at h ⊢; omega)
      have e3 := ih xs (y :: ys) (by simp at h ⊢; omega)
      simp only [List.map_cons] at e1 e2 e3 ⊢
      rw [levWith_cons_cons, levWith_cons_cons, ← e1, ← e2, ← e3]
      rfl

/-- C8: levenshtein_distance computes the case-insensitive Levenshtein
edit distance: the four specified evaluations hold, and for all strings
the dynamic program equals the textbook reference edit-distance recursion
over ASCII-case-folded characters. -/
theorem levenshtein_distance_correct :
    levenshtein_distance "apple" "apple" = 0 ∧
    levenshtein_distance "Apple" "apple" = 0 ∧
    levenshtein_distance "aple" "apple" = 1 ∧
    levenshtein_distance "xyz" "apple" = 5 ∧
    ∀ a b : String, levenshtein_distance a b = levRefFolded a b :=
  ⟨by decide, by decide, by decide, by decide, fun a b => by
    rw [levenshtein_eq_levWith]
    exact levWith_map_fold (a.data.length + b.data.length) a.data b.data le_rfl⟩

end Termibbl
